import Mathlib

/-!
# Verification of the Evo answer-fusion orchestrator and RAG pipeline

Shallow embedding of the core algorithmic components of the repository:

* `backend/app/orchestrator/msync.py` — `MultiModelOrchestrator.chat`
  (answer fusion by normalized plurality vote) and `_normalize`.
* `backend/app/rag/pipeline.py` — `RagPipeline._chunk`, `_embed_texts`,
  `_add_documents`, `_load`, `retrieve` and the corpus persistence layout.

Python strings are modelled as Lean `String`s (operating on their `List Char`
data), Python `float` vectors as `List ℚ` (exact arithmetic stands in for
IEEE floats; no claim below depends on rounding), and the external
collaborators (the Ollama client, numpy's seeded RNG, Python's per-process
string hash) as explicit function parameters.
-/

namespace Evo

/-- Python whitespace characters relevant to `str.split` / `str.strip`
(ASCII subset; the claims only exercise ASCII text). -/
def isPyWs (c : Char) : Bool :=
  c = ' ' || c = '\t' || c = '\n' || c = '\r' || c = '\x0b' || c = '\x0c'

/-- `str.strip()` on the character list: drop whitespace from both ends. -/
def pyStripL (l : List Char) : List Char :=
  ((l.dropWhile isPyWs).reverse.dropWhile isPyWs).reverse

/-- Python `str.strip()`. -/
def pyStrip (s : String) : String := ⟨pyStripL s.data⟩

/-- Worker for `str.split()`: `cur` holds the reversed chars of the word
being accumulated. Words are maximal runs of non-whitespace. -/
def splitWordsAux : List Char → List Char → List (List Char)
  | [], cur => if cur = [] then [] else [cur.reverse]
  | c :: cs, cur =>
    if isPyWs c then
      if cur = [] then splitWordsAux cs [] else cur.reverse :: splitWordsAux cs []
    else splitWordsAux cs (c :: cur)

/-- `str.split()` with no separator: split on whitespace runs, no empty words. -/
def splitWordsL (l : List Char) : List (List Char) := splitWordsAux l []

/-- Python `text.split()` producing strings. -/
def pySplit (s : String) : List String := (splitWordsL s.data).map fun w => ⟨w⟩

/-- Python `str.lower()` (ASCII case mapping, which is all the claims use). -/
def pyLower (s : String) : String := ⟨s.data.map Char.toLower⟩

/-- Python `" ".join(ws)`. -/
def joinWords : List String → String
  | [] => ""
  | [w] => w
  | w :: ws => w ++ " " ++ joinWords ws

/-- `MultiModelOrchestrator._normalize`: `" ".join(text.lower().split())` —
lower-case, collapse whitespace runs to single spaces, trim ends. -/
def pyNormalize (s : String) : String := joinWords (pySplit (pyLower s))

/-- The filter `if a and a.strip()` from `MultiModelOrchestrator.chat`:
an answer is usable iff it is non-empty and not whitespace-only. -/
def usable (a : String) : Bool := a != "" && pyStrip a != ""

/-- `non_empty = [a.strip() for a in answers if a and a.strip()]`. -/
def strippedAnswers (answers : List String) : List String :=
  (answers.filter usable).map pyStrip

/-- Keys of `collections.Counter(l)` in insertion order (Python dicts keep
first-insertion order): the distinct elements of `l`, ordered by first
occurrence. `seen` holds the keys already emitted. -/
def uniqAux : List String → List String → List String
  | [], _ => []
  | a :: l, seen => if a ∈ seen then uniqAux l seen else a :: uniqAux l (a :: seen)

/-- Distinct elements in first-occurrence order. -/
def uniqFirst (l : List String) : List String := uniqAux l []

/-- Scan the remaining Counter keys keeping the current best; only a strictly
greater count replaces it, so ties keep the earlier (first-seen) key.  This is
the semantics of `Counter.most_common(1)[0]` (`heapq.nlargest` is stable). -/
def chooseMax (l : List String) (best : String) : List String → String
  | [] => best
  | k :: ks => chooseMax l (if l.count best < l.count k then k else best) ks

/-- `counts.most_common(1)[0][0]`: the first-seen normalized form with the
highest occurrence count in `l`. -/
def bestNorm (l : List String) : String :=
  match uniqFirst l with
  | [] => ""
  | k :: ks => chooseMax l k ks

/-- Python `max(l, key=len)`: the first string of maximal length. -/
def maxByLen : List String → String
  | [] => ""
  | a :: l => l.foldl (fun best x => if best.length < x.length then x else best) a

/-- `MultiModelOrchestrator.chat` after the `asyncio.gather`: `answers` is the
per-model answer list in `model_list` order (`gather` preserves input order;
a failed model contributed `""`).  Models the fusion logic verbatim. -/
def fuse (answers : List String) : String :=
  let nonEmpty := strippedAnswers answers
  if nonEmpty = [] then "(no answer)"
  else
    let w := bestNorm (nonEmpty.map pyNormalize)
    match nonEmpty.filter (fun a => pyNormalize a == w) with
    | c :: _ => c
    | [] => maxByLen nonEmpty

/-! ## RAG pipeline (`backend/app/rag/pipeline.py`) -/

/-- `RagPipeline._chunk`'s loop: `current` accumulates words; once it reaches
`maxTokens` words it is flushed as `" ".join(current)`; a non-empty remainder
is flushed at the end. -/
def chunkLoop (maxTokens : Nat) : List String → List String → List String
  | [], current => if current = [] then [] else [joinWords current]
  | w :: ws, current =>
    if maxTokens ≤ current.length + 1 then
      joinWords (current ++ [w]) :: chunkLoop maxTokens ws []
    else chunkLoop maxTokens ws (current ++ [w])

/-- Word-group form of the same loop (the groups before `" ".join`). -/
def chunkGroups (maxTokens : Nat) : List String → List String → List (List String)
  | [], current => if current = [] then [] else [current]
  | w :: ws, current =>
    if maxTokens ≤ current.length + 1 then
      (current ++ [w]) :: chunkGroups maxTokens ws []
    else chunkGroups maxTokens ws (current ++ [w])

/-- `RagPipeline._chunk(text)` with the default `max_tokens = 500`. -/
def ragChunk (text : String) : List String := chunkLoop 500 (pySplit text) []

/-- One persisted RAG corpus: `store.txt` (absent before the first flush) and
`emb.npy` (the float32 matrix, modelled as its exact list of rows). -/
structure Disk where
  storeFile : Option String
  embFile : Option (List (List ℚ))
  deriving DecidableEq

/-- In-memory `RagPipeline` state (`self.docs`, `self.embeddings`) together
with the backing files. -/
structure CorpusState where
  docs : List String
  embeddings : Option (List (List ℚ))
  disk : Disk
  deriving DecidableEq

/-- Rows of an optional matrix (`None` has no rows). -/
def rowsOf : Option (List (List ℚ)) → Nat
  | none => 0
  | some m => m.length

/-- `for d in self.docs: f.write(d + "\n")` — the bytes written to `store.txt`. -/
def serializeStore (docs : List String) : String :=
  ⟨(docs.map fun d => d.data ++ ['\n']).flatten⟩

/-- Python text-file line iteration: lines keep their trailing `'\n'`; a final
segment with no newline is yielded iff non-empty.  `cur` is the reversed
current line. -/
def splitLinesAux : List Char → List Char → List (List Char)
  | [], cur => if cur = [] then [] else [cur.reverse]
  | c :: cs, cur =>
    if c = '\n' then (cur.reverse ++ ['\n']) :: splitLinesAux cs []
    else splitLinesAux cs (c :: cur)

/-- Lines of a file's contents. -/
def splitLinesL (l : List Char) : List (List Char) := splitLinesAux l []

/-- `line.rstrip("\n")`: drop every trailing newline character. -/
def pyRstripNl (l : List Char) : List Char := (l.reverse.dropWhile (· = '\n')).reverse

/-- `self.docs = [line.rstrip("\n") for line in f]` in `RagPipeline._load`. -/
def loadStore (content : String) : List String :=
  (splitLinesL content.data).map fun line => ⟨pyRstripNl line⟩

/-- `RagPipeline._load` run against a disk: read `store.txt` if present,
read `emb.npy` if present (np.load returns the saved matrix exactly). -/
def initState (d : Disk) : CorpusState :=
  { docs := match d.storeFile with
      | some content => loadStore content
      | none => []
    embeddings := d.embFile
    disk := d }

/-- `seed = abs(hash(t)) % (10**8)` — `hashFn` is Python's built-in `str`
hash for the current process (salted per run via `PYTHONHASHSEED`). -/
def fallbackSeed (hashFn : String → Int) (t : String) : Nat :=
  (hashFn t).natAbs % (10 ^ 8)

/-- `np.random.default_rng(seed).standard_normal(384)` — `rngVec` is numpy's
deterministic seed-to-vector map, an opaque parameter of the model. -/
def fallbackVec (rngVec : Nat → List ℚ) (hashFn : String → Int) (t : String) : List ℚ :=
  rngVec (fallbackSeed hashFn t)

/-- One iteration of `_embed_texts`: use the Ollama embedding when the call
succeeds with a non-empty vector (`oracle t = some v`, `v ≠ []`), otherwise
(`raise`d, or `not v`) fall back to the hash-seeded vector. -/
def embedOne (oracle : String → Option (List ℚ)) (rngVec : Nat → List ℚ)
    (hashFn : String → Int) (t : String) : List ℚ :=
  match oracle t with
  | some v => if v = [] then fallbackVec rngVec hashFn t else v
  | none => fallbackVec rngVec hashFn t

/-- `_normalize(v) = v / (np.linalg.norm(v) + 1e-8)`, applied per row.  The
scalar `1/(‖v‖₂ + 1e-8)` is a real number with no exact rational form, so
the model takes the per-row scale factor as a parameter `normScale`; every
claim below is insensitive to its value (scaling preserves the shape). -/
def normalizeRow (normScale : List ℚ → ℚ) (v : List ℚ) : List ℚ :=
  v.map fun x => x * normScale v

/-- `RagPipeline._embed_texts`: one (row-normalized) vector per input text. -/
def embedTexts (oracle : String → Option (List ℚ)) (rngVec : Nat → List ℚ)
    (hashFn : String → Int) (normScale : List ℚ → ℚ) (texts : List String) :
    List (List ℚ) :=
  texts.map fun t => normalizeRow normScale (embedOne oracle rngVec hashFn t)

/-- Failure injection points for `_add_documents`: `noFail` is the normal run;
`atVecSave` models `np.save` raising after the `store.txt` write-back
completed (the text artifact is on disk, the vector artifact is untouched,
and the in-memory lists were already extended). -/
inductive FailPoint
  | noFail
  | atVecSave
  deriving DecidableEq

/-- `RagPipeline._add_documents(chunks)`: no-op on an empty batch; otherwise
embed every chunk, extend `self.embeddings` (vstack) and `self.docs`, then
rewrite `store.txt` and finally `np.save` the matrix. -/
def addDocuments (oracle : String → Option (List ℚ)) (rngVec : Nat → List ℚ)
    (hashFn : String → Int) (normScale : List ℚ → ℚ) (fp : FailPoint)
    (st : CorpusState) (chunks : List String) : CorpusState :=
  if chunks = [] then st
  else
    let newVecs := embedTexts oracle rngVec hashFn normScale chunks
    let emb' := match st.embeddings with
      | none => newVecs
      | some m => m ++ newVecs
    let docs' := st.docs ++ chunks
    match fp with
    | .noFail =>
        { docs := docs', embeddings := some emb',
          disk := { storeFile := some (serializeStore docs'), embFile := some emb' } }
    | .atVecSave =>
        { docs := docs', embeddings := some emb',
          disk := { storeFile := some (serializeStore docs'), embFile := st.disk.embFile } }

/-! ### Retrieval

`retrieve` computes `sims = self.embeddings @ qv` and
`idxs = np.argsort(-sims)[:top_k]`.  `np.argsort`'s default
`kind='quicksort'` is documented as **not stable**, so the only contract the
code gets from it is "some permutation of the indices along which the
similarities are non-increasing".  `retrieve` is therefore modelled as a
relation over all such permutations. -/

/-- Dot product of two rational vectors (`row @ qv`). -/
def dot (u v : List ℚ) : ℚ := (List.zipWith (· * ·) u v).sum

/-- `sims = self.embeddings @ qv`. -/
def simsOf (m : List (List ℚ)) (qv : List ℚ) : List ℚ := m.map fun row => dot row qv

/-- `idxs` is a possible output of `np.argsort(-sims)`: a permutation of
`0..len(sims)-1` along which `sims` is non-increasing. -/
def IsArgsortDesc (sims : List ℚ) (idxs : List Nat) : Prop :=
  idxs.Perm (List.range sims.length) ∧
    (idxs.map fun i => sims.getD i 0).Sorted (fun a b => b ≤ a)

/-- `RagPipeline.retrieve` as a relation between the corpus state, the query
embedding `qv` (what `_embed_texts([query])[0]` returned), `top_k`, and a
possible result.  The guard is the literal
`if self.embeddings is None or not self.docs: return []`. -/
def RetrieveRel (st : CorpusState) (qv : List ℚ) (topK : Nat)
    (result : List String) : Prop :=
  ((st.embeddings = none ∨ st.docs = []) ∧ result = []) ∨
    (st.embeddings ≠ none ∧ st.docs ≠ [] ∧
      ∃ m idxs, st.embeddings = some m ∧ IsArgsortDesc (simsOf m qv) idxs ∧
        result = (idxs.take topK).map fun i => st.docs.getD i "")

/-- Lines of an optional text artifact (an absent file has no lines). -/
def linesOf : Option String → Nat
  | none => 0
  | some c => (splitLinesL c.data).length

/-- The alignment invariant: one embedding row per chunk, in memory and in
the persisted artifacts. -/
def Aligned (st : CorpusState) : Prop :=
  st.docs.length = rowsOf st.embeddings ∧
    linesOf st.disk.storeFile = rowsOf st.disk.embFile

/-- No stored chunk contains an embedded newline (so one chunk is one line). -/
def CleanDocs (st : CorpusState) : Prop := ∀ d ∈ st.docs, '\n' ∉ d.data

/-- Concrete collaborators used to instantiate the model in witnesses. -/
def demoOracle : String → Option (List ℚ) := fun _ => some [1]

/-- A seed-to-vector map producing 384-dimensional vectors. -/
def demoRng : Nat → List ℚ := fun _ => List.replicate 384 0

/-- A fixed process hash. -/
def demoHash : String → Int := fun _ => 0

/-- A trivial normalization scale. -/
def demoScale : List ℚ → ℚ := fun _ => 1

/-- The state of a freshly constructed `RagPipeline` with no persisted data. -/
def emptyState : CorpusState := initState ⟨none, none⟩

/-- A two-chunk corpus whose two embedding rows are identical, so both
similarities tie. -/
def tieState : CorpusState :=
  { docs := ["a", "b"], embeddings := some [[1], [1]], disk := ⟨none, none⟩ }

/-- A text of exactly 500 one-letter words. -/
def text500 : String := joinWords (List.replicate 500 "a")

/-- A text of exactly 501 one-letter words. -/
def text501 : String := joinWords (List.replicate 501 "a")

example : ragChunk "" = [] := by decide
example : ragChunk " a  b\t c " = ["a b c"] := by decide
example : chunkGroups 2 ["a", "b", "c"] [] = [["a", "b"], ["c"]] := by decide
example : serializeStore ["a", "b"] = "a\nb\n" := by decide
example : loadStore "a\nb\n" = ["a", "b"] := by decide
example : loadStore "a\nb" = ["a", "b"] := by decide

example : fuse ["Paris", "London"] = "Paris" := by decide

/-! ## Helper lemmas -/

theorem dropWhile_nil_of_all {p : Char → Bool} :
    ∀ l : List Char, (∀ c ∈ l, p c = true) → l.dropWhile p = [] := by
  intro l h
  induction l with
  | nil => rfl
  | cons c cs ih =>
    rw [List.dropWhile_cons, if_pos (h c (List.mem_cons_self c cs))]
    exact ih fun d hd => h d (List.mem_cons_of_mem c hd)

theorem pyStrip_blank (s : String) (h : s.data.all isPyWs = true) : pyStrip s = "" := by
  have h' : ∀ c ∈ s.data, isPyWs c = true := List.all_eq_true.mp h
  have h1 : s.data.dropWhile isPyWs = [] := dropWhile_nil_of_all s.data h'
  simp [pyStrip, pyStripL, h1]

theorem usable_false_of_blank (a : String) (h : pyStrip a = "") : usable a = false := by
  simp [usable, h]

/-! ## C9: all models fail or answer blank ⇒ the sentinel -/

/-- C9: if every dispatched model fails, times out, or returns an empty or
whitespace-only answer (so each entry of the gathered answer list is empty or
whitespace-only), `fuse` returns exactly `"(no answer)"`. -/
theorem c9_all_blank_gives_sentinel (answers : List String)
    (h : ∀ a ∈ answers, a.data.all isPyWs = true) :
    fuse answers = "(no answer)" := by
  have hf : answers.filter usable = [] := by
    rw [List.filter_eq_nil_iff]
    intro a ha
    simp [usable_false_of_blank a (pyStrip_blank a (h a ha))]
  have hs : strippedAnswers answers = [] := by simp [strippedAnswers, hf]
  simp [fuse, hs]

/-- Witness for C9 at the concrete answer set `["", "  ", "\t\n"]`. -/
theorem c9_witness : fuse ["", "  ", "\t\n"] = "(no answer)" :=
  c9_all_blank_gives_sentinel ["", "  ", "\t\n"] (by decide)

/-! ## C10: retrieval on an empty corpus -/

/-- C10: on an empty corpus (`self.embeddings is None or not self.docs`),
`retrieve` returns the empty list — and only the empty list — for every query
embedding and every `top_k`; the guard returns before any similarity
computation, so no error can be raised. -/
theorem c10_empty_corpus_retrieve (st : CorpusState) (qv : List ℚ) (topK : Nat)
    (result : List String) (h : st.embeddings = none ∨ st.docs = []) :
    RetrieveRel st qv topK result ↔ result = [] := by
  constructor
  · rintro (⟨_, hr⟩ | ⟨hne, hd, _⟩)
    · exact hr
    · cases h with
      | inl h => exact absurd h hne
      | inr h => exact absurd h hd
  · rintro rfl
    exact Or.inl ⟨h, rfl⟩

/-- Witness for C10: the fresh pipeline state does return `[]`. -/
theorem c10_witness : RetrieveRel emptyState [1] 4 [] :=
  (c10_empty_corpus_retrieve emptyState [1] 4 [] (Or.inl rfl)).mpr rfl

/-! ## C2: persistence is not atomic -/

/-- Counterexample to C2: starting from the fresh (empty-disk) state, ingest
one chunk `"a"` and fail at the `np.save` step (after the `store.txt`
rewrite).  The claim says the on-disk corpus is left exactly as before the
call, but the text artifact now holds `"a\n"` whereas before the call there
was no text artifact at all. -/
theorem c2_counterexample :
    (addDocuments demoOracle demoRng demoHash demoScale .atVecSave emptyState
        ["a"]).disk.storeFile = some "a\n" ∧
      emptyState.disk.storeFile = none := by
  constructor
  · decide
  · rfl

/-- C2 (amended): `_add_documents` rewrites `store.txt` before `np.save`, so
a failure during the vector write leaves the vector artifact unchanged but
the text artifact already rewritten with the extended corpus (a partial
flush with misaligned artifacts); the in-memory lists were also already
extended. -/
theorem c2_vec_save_failure_partial_flush (oracle : String → Option (List ℚ))
    (rngVec : Nat → List ℚ) (hashFn : String → Int) (normScale : List ℚ → ℚ)
    (st : CorpusState) (chunks : List String) (h : chunks ≠ []) :
    (addDocuments oracle rngVec hashFn normScale .atVecSave st chunks).disk.embFile
        = st.disk.embFile ∧
      (addDocuments oracle rngVec hashFn normScale .atVecSave st chunks).disk.storeFile
        = some (serializeStore (st.docs ++ chunks)) ∧
      (addDocuments oracle rngVec hashFn normScale .atVecSave st chunks).docs
        = st.docs ++ chunks := by
  simp [addDocuments, h]

/-- Witness for the amended C2 at a concrete failing ingest. -/
theorem c2_witness :
    (addDocuments demoOracle demoRng demoHash demoScale .atVecSave emptyState
        ["a"]).disk.embFile = emptyState.disk.embFile ∧
      (addDocuments demoOracle demoRng demoHash demoScale .atVecSave emptyState
          ["a"]).disk.storeFile = some (serializeStore (emptyState.docs ++ ["a"])) ∧
      (addDocuments demoOracle demoRng demoHash demoScale .atVecSave emptyState
          ["a"]).docs = emptyState.docs ++ ["a"] :=
  c2_vec_save_failure_partial_flush demoOracle demoRng demoHash demoScale
    emptyState ["a"] (by decide)

/-! ## C8: the fallback seed is salted per process -/

/-- C8 (divergence): the fallback embedding seed is
`abs(hash(t)) % 10**8` where `hash` is Python's built-in string hash, which
is salted per process (`PYTHONHASHSEED`).  The seed — and hence the vector
`rng.standard_normal(384)` drawn from it — is a function of the per-run hash,
not of the chunk text alone: two runs whose hash functions differ on `"a"`
derive different seeds for the same text, contradicting the claimed
cross-run determinism. -/
theorem c8_seed_depends_on_process_hash :
    fallbackSeed (fun _ => (0 : Int)) "a" ≠ fallbackSeed (fun _ => 1) "a" := by
  decide

/-! ## C6: greedy chunking -/

theorem chunkLoop_eq_map (m : Nat) :
    ∀ ws cur : List String, chunkLoop m ws cur = (chunkGroups m ws cur).map joinWords := by
  intro ws
  induction ws with
  | nil =>
    intro cur
    by_cases h : cur = [] <;> simp [chunkLoop, chunkGroups, h]
  | cons w ws ih =>
    intro cur
    by_cases h : m ≤ cur.length + 1 <;> simp [chunkLoop, chunkGroups, h, ih]

theorem chunkGroups_flatten (m : Nat) :
    ∀ ws cur : List String, (chunkGroups m ws cur).flatten = cur ++ ws := by
  intro ws
  induction ws with
  | nil =>
    intro cur
    by_cases h : cur = [] <;> simp [chunkGroups, h]
  | cons w ws ih =>
    intro cur
    by_cases h : m ≤ cur.length + 1 <;> simp [chunkGroups, h, ih]

theorem chunkGroups_size (m : Nat) (hm : 0 < m) :
    ∀ ws cur : List String, cur.length < m → ∀ g ∈ chunkGroups m ws cur, g.length ≤ m := by
  intro ws
  induction ws with
  | nil =>
    intro cur hc g hg
    by_cases h : cur = [] <;> simp [chunkGroups, h] at hg
    subst hg
    omega
  | cons w ws ih =>
    intro cur hc g hg
    by_cases h : m ≤ cur.length + 1
    · simp [chunkGroups, h] at hg
      rcases hg with hg | hg
      · subst hg
        simp
        omega
      · exact ih [] (by simpa using hm) g hg
    · exact ih (cur ++ [w]) (by simp; omega) g (by simpa [chunkGroups, h] using hg)

theorem chunkGroups_exact (m : Nat) (hm : 0 < m) :
    ∀ ws cur : List String, ws.length + cur.length = m → chunkGroups m ws cur = [cur ++ ws] := by
  intro ws
  induction ws with
  | nil =>
    intro cur h
    have hc : cur ≠ [] := by
      intro he
      subst he
      simp at h
      omega
    simp [chunkGroups, hc]
  | cons w ws ih =>
    intro cur h
    simp at h
    by_cases hb : m ≤ cur.length + 1
    · have hws : ws = [] := by
        have : ws.length = 0 := by omega
        exact List.length_eq_zero.mp this
      subst hws
      simp [chunkGroups, hb]
    · rw [chunkGroups, if_neg hb, ih (cur ++ [w]) (by simp; omega)]
      simp

theorem chunkGroups_one_over (m : Nat) (_hm : 0 < m) :
    ∀ ws cur : List String, ws.length + cur.length = m + 1 → cur.length < m →
      chunkGroups m ws cur = [(cur ++ ws).take m, (cur ++ ws).drop m] := by
  intro ws
  induction ws with
  | nil =>
    intro cur h hc
    simp at h
    omega
  | cons w ws ih =>
    intro cur h hc
    simp at h
    by_cases hb : m ≤ cur.length + 1
    · have hcm : cur.length + 1 = m := by omega
      obtain ⟨w', hw'⟩ : ∃ w', ws = [w'] := by
        have : ws.length = 1 := by omega
        exact List.length_eq_one.mp this
      subst hw'
      have h1 : chunkGroups m [w'] ([] : List String) = [[w']] := by
        by_cases h2 : m ≤ 1 <;> simp [chunkGroups, h2]
      rw [chunkGroups, if_pos hb, h1]
      have htake : ((cur ++ [w]) ++ [w']).take m = cur ++ [w] := by
        rw [← hcm, show cur.length + 1 = (cur ++ [w]).length by simp, List.take_left]
      have hdrop : ((cur ++ [w]) ++ [w']).drop m = [w'] := by
        rw [← hcm, show cur.length + 1 = (cur ++ [w]).length by simp, List.drop_left]
      simp only [List.append_assoc, List.singleton_append] at htake hdrop
      rw [htake, hdrop]
    · rw [chunkGroups, if_neg hb, ih (cur ++ [w]) (by simp; omega) (by simp; omega)]
      simp

/-- C6: `_chunk` splits the text's whitespace-delimited tokens into greedy
groups joined by single spaces: the groups partition the token list, each
group holds at most 500 tokens, a 500-token text yields exactly one chunk, a
501-token text yields exactly two chunks (the first 500 tokens, then the last
one), and a text with no tokens yields zero chunks. -/
theorem c6_chunk_greedy_500 (text : String) :
    ragChunk text = (chunkGroups 500 (pySplit text) []).map joinWords ∧
    (chunkGroups 500 (pySplit text) []).flatten = pySplit text ∧
    (∀ g ∈ chunkGroups 500 (pySplit text) [], g.length ≤ 500) ∧
    ((pySplit text).length = 500 → ragChunk text = [joinWords (pySplit text)]) ∧
    ((pySplit text).length = 501 →
      ragChunk text = [joinWords ((pySplit text).take 500),
        joinWords ((pySplit text).drop 500)]) ∧
    (pySplit text = [] → ragChunk text = []) := by
  refine ⟨chunkLoop_eq_map 500 _ [],
    by simpa using chunkGroups_flatten 500 (pySplit text) [],
    chunkGroups_size 500 (by omega) _ [] (by simp), ?_, ?_, ?_⟩
  · intro h
    rw [ragChunk, chunkLoop_eq_map,
      chunkGroups_exact 500 (by omega) _ [] (by simpa using h)]
    simp
  · intro h
    rw [ragChunk, chunkLoop_eq_map,
      chunkGroups_one_over 500 (by omega) _ [] (by simpa using h) (by simp)]
    simp
  · intro h
    rw [ragChunk, h]
    rfl

/-! ## Store serialization lemmas (for C7 and C1) -/

theorem dropWhile_self_of_none {p : Char → Bool} (l : List Char)
    (h : ∀ c ∈ l, p c = false) : l.dropWhile p = l := by
  cases l with
  | nil => rfl
  | cons c cs =>
    rw [List.dropWhile_cons, if_neg]
    simp [h c (List.mem_cons_self c cs)]

theorem pyRstripNl_line (d : List Char) (h : '\n' ∉ d) : pyRstripNl (d ++ ['\n']) = d := by
  have h1 : (d ++ ['\n']).reverse = '\n' :: d.reverse := by
    rw [List.reverse_append]
    rfl
  have h2 : d.reverse.dropWhile (· = '\n') = d.reverse := by
    apply dropWhile_self_of_none
    intro c hc
    have : c ≠ '\n' := fun he => h (he ▸ List.mem_reverse.mp hc)
    simpa using this
  rw [pyRstripNl, h1, List.dropWhile_cons, if_pos (by simp), h2, List.reverse_reverse]

theorem splitLinesAux_line : ∀ d rest cur : List Char, '\n' ∉ d →
    splitLinesAux (d ++ '\n' :: rest) cur
      = (cur.reverse ++ d ++ ['\n']) :: splitLinesAux rest [] := by
  intro d
  induction d with
  | nil =>
    intro rest cur _
    simp [splitLinesAux]
  | cons c d ih =>
    intro rest cur h
    have hc : c ≠ '\n' := fun he => h (he ▸ List.mem_cons_self c d)
    rw [List.cons_append, splitLinesAux, if_neg (by simpa using hc),
      ih rest (c :: cur) fun hm => h (List.mem_cons_of_mem c hm)]
    simp

theorem splitLines_serialize : ∀ docs : List String, (∀ d ∈ docs, '\n' ∉ d.data) →
    splitLinesL (serializeStore docs).data = docs.map fun d => d.data ++ ['\n'] := by
  intro docs
  induction docs with
  | nil => intro _; rfl
  | cons d ds ih =>
    intro h
    have hd : (serializeStore (d :: ds)).data = d.data ++ '\n' :: (serializeStore ds).data := by
      simp [serializeStore]
    rw [splitLinesL, hd, splitLinesAux_line d.data _ [] (h d (List.mem_cons_self d ds))]
    simp only [List.reverse_nil, List.nil_append, List.map_cons]
    rw [show splitLinesAux (serializeStore ds).data [] = splitLinesL (serializeStore ds).data from rfl,
      ih fun x hx => h x (List.mem_cons_of_mem d hx)]

theorem loadStore_serializeStore (docs : List String) (h : ∀ d ∈ docs, '\n' ∉ d.data) :
    loadStore (serializeStore docs) = docs := by
  rw [loadStore, splitLines_serialize docs h, List.map_map]
  have he : ∀ d ∈ docs, (⟨pyRstripNl (d.data ++ ['\n'])⟩ : String) = d := by
    intro d hd
    rw [pyRstripNl_line d.data (h d hd)]
  calc docs.map ((fun line => (⟨pyRstripNl line⟩ : String)) ∘ fun d => d.data ++ ['\n'])
      = docs.map id := List.map_congr_left he
    _ = docs := List.map_id docs

/-! ## C7: persist-then-load round trip -/

/-- C7: after a successful ingest (whose chunks, like every chunk produced by
`_chunk`, contain no embedded newline), running a fresh `_load` against the
persisted artifacts reproduces the in-memory chunk list exactly and the
in-memory embedding matrix exactly. -/
theorem c7_persist_load_roundtrip (oracle : String → Option (List ℚ))
    (rngVec : Nat → List ℚ) (hashFn : String → Int) (normScale : List ℚ → ℚ)
    (st : CorpusState) (chunks : List String) (hne : chunks ≠ [])
    (hclean : ∀ d ∈ st.docs ++ chunks, '\n' ∉ d.data) :
    (initState (addDocuments oracle rngVec hashFn normScale .noFail st chunks).disk).docs
        = (addDocuments oracle rngVec hashFn normScale .noFail st chunks).docs ∧
      (initState (addDocuments oracle rngVec hashFn normScale .noFail st chunks).disk).embeddings
        = (addDocuments oracle rngVec hashFn normScale .noFail st chunks).embeddings := by
  rw [addDocuments, if_neg hne]
  exact ⟨by simp [initState, loadStore_serializeStore _ hclean], rfl⟩

/-- Witness for C7 at a concrete one-chunk ingest. -/
theorem c7_witness :
    (initState (addDocuments demoOracle demoRng demoHash demoScale .noFail emptyState
          ["hi"]).disk).docs
        = (addDocuments demoOracle demoRng demoHash demoScale .noFail emptyState
            ["hi"]).docs ∧
      (initState (addDocuments demoOracle demoRng demoHash demoScale .noFail emptyState
            ["hi"]).disk).embeddings
        = (addDocuments demoOracle demoRng demoHash demoScale .noFail emptyState
            ["hi"]).embeddings :=
  c7_persist_load_roundtrip demoOracle demoRng demoHash demoScale emptyState
    ["hi"] (by decide) (by decide)

/-! ## C1: chunk/embedding alignment invariant -/

theorem splitWordsAux_no_ws : ∀ l cur : List Char, (∀ c ∈ cur, isPyWs c = false) →
    ∀ w ∈ splitWordsAux l cur, ∀ c ∈ w, isPyWs c = false := by
  intro l
  induction l with
  | nil =>
    intro cur hcur w hw c hc
    by_cases h : cur = [] <;> simp [splitWordsAux, h] at hw
    subst hw
    exact hcur c (List.mem_reverse.mp hc)
  | cons a l ih =>
    intro cur hcur w hw c hc
    cases ha : isPyWs a with
    | true =>
      by_cases hc0 : cur = []
      · rw [splitWordsAux, if_pos ha, if_pos hc0] at hw
        exact ih [] (by simp) w hw c hc
      · rw [splitWordsAux, if_pos ha, if_neg hc0] at hw
        rcases List.mem_cons.mp hw with hw | hw
        · subst hw
          exact hcur c (List.mem_reverse.mp hc)
        · exact ih [] (by simp) w hw c hc
    | false =>
      rw [splitWordsAux, if_neg (by simp [ha])] at hw
      refine ih (a :: cur) ?_ w hw c hc
      intro x hx
      rcases List.mem_cons.mp hx with hx | hx
      · exact hx ▸ ha
      · exact hcur x hx

theorem pySplit_no_ws (text : String) : ∀ w ∈ pySplit text, ∀ c ∈ w.data, isPyWs c = false := by
  intro w hw c hc
  simp only [pySplit, List.mem_map] at hw
  obtain ⟨wl, hwl, rfl⟩ := hw
  exact splitWordsAux_no_ws text.data [] (by simp) wl hwl c hc

theorem joinWords_chars : ∀ ws : List String, (∀ w ∈ ws, ∀ c ∈ w.data, isPyWs c = false) →
    ∀ c ∈ (joinWords ws).data, c = ' ' ∨ isPyWs c = false := by
  intro ws
  induction ws with
  | nil =>
    intro _ c hc
    simp [joinWords] at hc
  | cons w ws ih =>
    intro h c hc
    cases ws with
    | nil =>
      right
      exact h w (List.mem_cons_self w []) c (by simpa [joinWords] using hc)
    | cons w' ws' =>
      rw [show joinWords (w :: w' :: ws') = w ++ " " ++ joinWords (w' :: ws') from rfl] at hc
      simp only [String.data_append] at hc
      rcases List.mem_append.mp hc with hc | hc
      · rcases List.mem_append.mp hc with hc | hc
        · exact Or.inr (h w (List.mem_cons_self w _) c hc)
        · exact Or.inl (by simpa using hc)
      · exact ih (fun x hx => h x (List.mem_cons_of_mem w hx)) c hc

theorem ragChunk_clean (text : String) : ∀ ch ∈ ragChunk text, '\n' ∉ ch.data := by
  intro ch hch
  rw [ragChunk, chunkLoop_eq_map] at hch
  simp only [List.mem_map] at hch
  obtain ⟨g, hg, rfl⟩ := hch
  intro hn
  have hws : ∀ w ∈ g, ∀ c ∈ w.data, isPyWs c = false := by
    intro w hwg
    have hwm : w ∈ (chunkGroups 500 (pySplit text) []).flatten :=
      List.mem_flatten.mpr ⟨g, hg, hwg⟩
    rw [chunkGroups_flatten] at hwm
    exact pySplit_no_ws text w (by simpa using hwm)
  rcases joinWords_chars g hws '\n' hn with h | h
  · exact absurd h (by decide)
  · exact absurd h (by decide)

/-- C1: ingesting the chunks of any text into an aligned, newline-clean
corpus leaves the corpus aligned (one embedding row per chunk, in memory
and in lines/rows of the persisted artifacts) and newline-clean;
`_embed_texts` yields exactly one row per chunk; and every chunk whose
embedding call failed (`None`) or returned an empty vector gets exactly one
384-dimensional fallback row. -/
theorem c1_alignment_invariant (oracle : String → Option (List ℚ))
    (rngVec : Nat → List ℚ) (hashFn : String → Int) (normScale : List ℚ → ℚ)
    (st : CorpusState) (text : String) (ha : Aligned st) (hc : CleanDocs st)
    (h384 : ∀ s, (rngVec s).length = 384) :
    Aligned (addDocuments oracle rngVec hashFn normScale .noFail st (ragChunk text)) ∧
      CleanDocs (addDocuments oracle rngVec hashFn normScale .noFail st (ragChunk text)) ∧
      (embedTexts oracle rngVec hashFn normScale (ragChunk text)).length
        = (ragChunk text).length ∧
      ∀ t ∈ ragChunk text, (oracle t = none ∨ oracle t = some []) →
        (normalizeRow normScale (embedOne oracle rngVec hashFn t)).length = 384 := by
  refine ⟨?_, ?_, by simp [embedTexts], ?_⟩
  · by_cases hnil : ragChunk text = []
    · rw [addDocuments, if_pos hnil]
      exact ha
    · rw [addDocuments, if_neg hnil]
      have hclean' : ∀ d ∈ st.docs ++ ragChunk text, '\n' ∉ d.data := by
        intro d hd
        rcases List.mem_append.mp hd with hd | hd
        · exact hc d hd
        · exact ragChunk_clean text d hd
      have hlen : ∀ m : List (List ℚ),
          (m ++ embedTexts oracle rngVec hashFn normScale (ragChunk text)).length
            = m.length + (ragChunk text).length := by
        intro m
        simp [embedTexts]
      constructor
      · show (st.docs ++ ragChunk text).length = rowsOf (some _)
        cases hemb : st.embeddings with
        | none =>
          have h0 : st.docs = [] := by
            have := ha.1
            rw [hemb] at this
            exact List.length_eq_zero.mp this
          simp [rowsOf, hemb, embedTexts, h0]
        | some m =>
          have h0 : st.docs.length = m.length := by
            have := ha.1
            rw [hemb] at this
            exact this
          simp [rowsOf, hemb, embedTexts, h0]
      · show linesOf (some (serializeStore (st.docs ++ ragChunk text))) = rowsOf (some _)
        rw [show linesOf (some (serializeStore (st.docs ++ ragChunk text)))
            = (splitLinesL (serializeStore (st.docs ++ ragChunk text)).data).length from rfl,
          splitLines_serialize _ hclean']
        cases hemb : st.embeddings with
        | none =>
          have h0 : st.docs = [] := by
            have := ha.1
            rw [hemb] at this
            exact List.length_eq_zero.mp this
          simp [rowsOf, embedTexts, h0]
        | some m =>
          have h0 : st.docs.length = m.length := by
            have := ha.1
            rw [hemb] at this
            exact this
          simp [rowsOf, embedTexts, h0]
  · by_cases hnil : ragChunk text = []
    · rw [addDocuments, if_pos hnil]
      exact hc
    · rw [addDocuments, if_neg hnil]
      intro d hd
      rcases List.mem_append.mp hd with hd | hd
      · exact hc d hd
      · exact ragChunk_clean text d hd
  · intro t _ hfail
    rcases hfail with hfail | hfail <;>
      simp [normalizeRow, embedOne, hfail, fallbackVec, h384]

/-- Witness for C1 at a concrete ingest into the fresh pipeline state. -/
theorem c1_witness :
    Aligned (addDocuments demoOracle demoRng demoHash demoScale .noFail emptyState
        (ragChunk "hello world")) ∧
      CleanDocs (addDocuments demoOracle demoRng demoHash demoScale .noFail emptyState
        (ragChunk "hello world")) ∧
      (embedTexts demoOracle demoRng demoHash demoScale (ragChunk "hello world")).length
        = (ragChunk "hello world").length ∧
      ∀ t ∈ ragChunk "hello world",
        (demoOracle t = none ∨ demoOracle t = some []) →
          (normalizeRow demoScale (embedOne demoOracle demoRng demoHash t)).length = 384 :=
  c1_alignment_invariant demoOracle demoRng demoHash demoScale emptyState "hello world"
    ⟨rfl, rfl⟩ (fun d hd => absurd (show d ∈ ([] : List String) from hd) (List.not_mem_nil d))
    (fun s => by rw [show demoRng s = List.replicate 384 0 from rfl, List.length_replicate])

/-! ## Fusion: plurality vote with first-seen tie-break (C3, C4) -/

theorem filter_head_spec {p : String → Bool} :
    ∀ (l : List String) (r : String) (t : List String), l.filter p = r :: t →
      r ∈ l ∧ p r = true ∧ ∀ x ∈ l.takeWhile (· != r), p x = false := by
  intro l
  induction l with
  | nil =>
    intro r t h
    simp at h
  | cons a l ih =>
    intro r t h
    cases hpa : p a with
    | false =>
      rw [List.filter_cons_of_neg (by simp [hpa])] at h
      obtain ⟨hr, hpr, htw⟩ := ih r t h
      have har : a ≠ r := fun he => by rw [he, hpr] at hpa; cases hpa
      refine ⟨List.mem_cons_of_mem a hr, hpr, ?_⟩
      rw [List.takeWhile_cons, if_pos (by simpa using har)]
      intro x hx
      rcases List.mem_cons.mp hx with hx | hx
      · exact hx ▸ hpa
      · exact htw x hx
    | true =>
      rw [List.filter_cons_of_pos hpa] at h
      obtain ⟨rfl, -⟩ := List.cons.injEq .. ▸ h
      refine ⟨List.mem_cons_self a l, hpa, ?_⟩
      rw [List.takeWhile_cons, if_neg (by simp)]
      intro x hx
      simp at hx

theorem mem_uniqAux : ∀ (l seen : List String) (x : String),
    x ∈ uniqAux l seen ↔ x ∈ l ∧ x ∉ seen := by
  intro l
  induction l with
  | nil =>
    intro seen x
    simp [uniqAux]
  | cons a l ih =>
    intro seen x
    by_cases ha : a ∈ seen
    · rw [uniqAux, if_pos ha, ih]
      constructor
      · rintro ⟨hx, hxs⟩
        exact ⟨List.mem_cons_of_mem a hx, hxs⟩
      · rintro ⟨hx, hxs⟩
        rcases List.mem_cons.mp hx with rfl | hx
        · exact absurd ha hxs
        · exact ⟨hx, hxs⟩
    · rw [uniqAux, if_neg ha]
      constructor
      · intro hx
        rcases List.mem_cons.mp hx with rfl | hx
        · exact ⟨List.mem_cons_self x l, ha⟩
        · obtain ⟨hxl, hxs⟩ := (ih (a :: seen) x).mp hx
          exact ⟨List.mem_cons_of_mem a hxl,
            fun hs => hxs (List.mem_cons_of_mem a hs)⟩
      · rintro ⟨hx, hxs⟩
        rcases List.mem_cons.mp hx with rfl | hx
        · exact List.mem_cons_self x _
        · by_cases hxa : x = a
          · exact hxa ▸ List.mem_cons_self a _
          · exact List.mem_cons_of_mem a ((ih (a :: seen) x).mpr
              ⟨hx, by simp [hxa, hxs]⟩)

theorem uniqAux_before : ∀ (l seen u₁ u₂ : List String) (w : String),
    uniqAux l seen = u₁ ++ w :: u₂ →
    ∀ x ∈ l.takeWhile (· != w), x ∉ seen → x ∈ u₁ := by
  intro l
  induction l with
  | nil =>
    intro seen u₁ u₂ w h
    rw [uniqAux] at h
    exact absurd h.symm (List.append_ne_nil_of_right_ne_nil u₁ (List.cons_ne_nil w u₂))
  | cons a l ih =>
    intro seen u₁ u₂ w h x hx hxs
    by_cases ha : a ∈ seen
    · rw [uniqAux, if_pos ha] at h
      by_cases haw : a = w
      · rw [List.takeWhile_cons, if_neg (by simp [haw])] at hx
        simp at hx
      · rw [List.takeWhile_cons, if_pos (by simpa using haw)] at hx
        rcases List.mem_cons.mp hx with rfl | hx
        · exact absurd ha hxs
        · exact ih seen u₁ u₂ w h x hx hxs
    · rw [uniqAux, if_neg ha] at h
      cases u₁ with
      | nil =>
        simp only [List.nil_append] at h
        obtain ⟨rfl, -⟩ := List.cons.injEq .. ▸ h
        rw [List.takeWhile_cons, if_neg (by simp)] at hx
        simp at hx
      | cons b u₁' =>
        simp only [List.cons_append] at h
        obtain ⟨rfl, htail⟩ := List.cons.injEq .. ▸ h
        have haw : a ≠ w := by
          intro he
          have hwmem : w ∈ uniqAux l (a :: seen) :=
            htail ▸ List.mem_append_right u₁' (List.mem_cons_self w u₂)
          have := ((mem_uniqAux l (a :: seen) w).mp hwmem).2
          exact this (he ▸ List.mem_cons_self a seen)
        rw [List.takeWhile_cons, if_pos (by simpa using haw)] at hx
        rcases List.mem_cons.mp hx with rfl | hx
        · exact List.mem_cons_self x u₁'
        · by_cases hxa : x = a
          · exact hxa ▸ List.mem_cons_self a u₁'
          · exact List.mem_cons_of_mem a
              (ih (a :: seen) u₁' u₂ w htail x hx (by simp [hxa, hxs]))

theorem chooseMax_spec (l : List String) :
    ∀ (ks : List String) (b : String),
      (chooseMax l b ks = b ∧ ∀ k ∈ ks, l.count k ≤ l.count b) ∨
      (∃ ks₁ ks₂, ks = ks₁ ++ chooseMax l b ks :: ks₂ ∧
        l.count b < l.count (chooseMax l b ks) ∧
        (∀ k ∈ ks₁, l.count k < l.count (chooseMax l b ks)) ∧
        ∀ k ∈ ks₂, l.count k ≤ l.count (chooseMax l b ks)) := by
  intro ks
  induction ks with
  | nil =>
    intro b
    left
    exact ⟨rfl, by simp⟩
  | cons k ks ih =>
    intro b
    by_cases hbk : l.count b < l.count k
    · have hck : chooseMax l b (k :: ks) = chooseMax l k ks := by
        rw [chooseMax, if_pos hbk]
      rcases ih k with ⟨heq, hle⟩ | ⟨ks₁, ks₂, hks, hlt, h₁, h₂⟩
      · right
        refine ⟨[], ks, by rw [hck, heq, List.nil_append], ?_, by simp, ?_⟩
        · rw [hck, heq]
          exact hbk
        · intro k' hk'
          rw [hck, heq]
          exact hle k' hk'
      · right
        refine ⟨k :: ks₁, ks₂, by rw [hck, List.cons_append, ← hks], ?_, ?_, ?_⟩
        · rw [hck]
          exact lt_trans hbk hlt
        · intro k' hk'
          rcases List.mem_cons.mp hk' with rfl | hk'
          · rw [hck]
            exact hlt
          · rw [hck]
            exact h₁ k' hk'
        · intro k' hk'
          rw [hck]
          exact h₂ k' hk'
    · have hck : chooseMax l b (k :: ks) = chooseMax l b ks := by
        rw [chooseMax, if_neg hbk]
      rcases ih b with ⟨heq, hle⟩ | ⟨ks₁, ks₂, hks, hlt, h₁, h₂⟩
      · left
        refine ⟨by rw [hck, heq], ?_⟩
        intro k' hk'
        rcases List.mem_cons.mp hk' with rfl | hk'
        · exact le_of_not_lt hbk
        · exact hle k' hk'
      · right
        refine ⟨k :: ks₁, ks₂, by rw [hck, List.cons_append, ← hks], ?_, ?_, ?_⟩
        · rw [hck]
          exact hlt
        · intro k' hk'
          rcases List.mem_cons.mp hk' with rfl | hk'
          · rw [hck]
            exact lt_of_le_of_lt (le_of_not_lt hbk) hlt
          · rw [hck]
            exact h₁ k' hk'
        · intro k' hk'
          rw [hck]
          exact h₂ k' hk'

theorem bestNorm_split (l : List String) (hl : l ≠ []) :
    ∃ u₁ u₂, uniqFirst l = u₁ ++ bestNorm l :: u₂ ∧
      (∀ k ∈ u₁, l.count k < l.count (bestNorm l)) ∧
      ∀ k ∈ u₂, l.count k ≤ l.count (bestNorm l) := by
  obtain ⟨a, l', rfl⟩ := List.exists_cons_of_ne_nil hl
  have hu : ∃ k ks, uniqFirst (a :: l') = k :: ks := by
    rw [uniqFirst, uniqAux, if_neg (List.not_mem_nil a)]
    exact ⟨a, _, rfl⟩
  obtain ⟨k, ks, hks⟩ := hu
  have hb : bestNorm (a :: l') = chooseMax (a :: l') k ks := by
    rw [bestNorm, hks]
  rcases chooseMax_spec (a :: l') ks k with ⟨heq, hle⟩ | ⟨ks₁, ks₂, hsp, hlt, h₁, h₂⟩
  · have hbk : bestNorm (a :: l') = k := by rw [hb, heq]
    refine ⟨[], ks, by rw [hbk, hks, List.nil_append], by simp, ?_⟩
    intro x hx
    rw [hbk]
    exact hle x hx
  · refine ⟨k :: ks₁, ks₂, ?_, ?_, ?_⟩
    · rw [hb, hks, List.cons_append, ← hsp]
    · intro x hx
      rcases List.mem_cons.mp hx with rfl | hx
      · rw [hb]
        exact hlt
      · rw [hb]
        exact h₁ x hx
    · intro x hx
      rw [hb]
      exact h₂ x hx

theorem bestNorm_mem (l : List String) (hl : l ≠ []) : bestNorm l ∈ l := by
  obtain ⟨u₁, u₂, hsp, -, -⟩ := bestNorm_split l hl
  have : bestNorm l ∈ uniqFirst l :=
    hsp ▸ List.mem_append_right u₁ (List.mem_cons_self _ u₂)
  exact ((mem_uniqAux l [] (bestNorm l)).mp this).1

theorem bestNorm_max (l : List String) (hl : l ≠ []) :
    ∀ x ∈ l, l.count x ≤ l.count (bestNorm l) := by
  obtain ⟨u₁, u₂, hsp, h₁, h₂⟩ := bestNorm_split l hl
  intro x hx
  have hxu : x ∈ uniqFirst l := (mem_uniqAux l [] x).mpr ⟨hx, List.not_mem_nil x⟩
  rw [hsp] at hxu
  rcases List.mem_append.mp hxu with hxu | hxu
  · exact le_of_lt (h₁ x hxu)
  · rcases List.mem_cons.mp hxu with rfl | hxu
    · exact le_refl _
    · exact h₂ x hxu

theorem bestNorm_first (l : List String) (hl : l ≠ []) :
    ∀ x ∈ l.takeWhile (· != bestNorm l), l.count x < l.count (bestNorm l) := by
  obtain ⟨u₁, u₂, hsp, h₁, -⟩ := bestNorm_split l hl
  intro x hx
  exact h₁ x (uniqAux_before l [] u₁ u₂ (bestNorm l) hsp x hx (List.not_mem_nil x))

/-- In the non-degenerate case `fuse` returns the head of the candidate
filter (the `max(..., key=len)` fallback arm is unreachable because the
winning normalized form always has at least one candidate). -/
theorem fuse_eq_head_candidates (answers : List String)
    (h : strippedAnswers answers ≠ []) :
    ∃ c t, (strippedAnswers answers).filter
        (fun a => pyNormalize a == bestNorm ((strippedAnswers answers).map pyNormalize))
          = c :: t ∧
      fuse answers = c := by
  set S := strippedAnswers answers with hS
  set w := bestNorm (S.map pyNormalize) with hw
  have hN : S.map pyNormalize ≠ [] := by
    intro he
    exact h (List.map_eq_nil_iff.mp he)
  have hwmem : w ∈ S.map pyNormalize := bestNorm_mem _ hN
  obtain ⟨s, hsS, hsw⟩ := List.mem_map.mp hwmem
  have hsf : s ∈ S.filter (fun a => pyNormalize a == w) :=
    List.mem_filter.mpr ⟨hsS, by simp [hsw]⟩
  obtain ⟨c, t, hct⟩ := List.exists_cons_of_ne_nil (List.ne_nil_of_mem hsf)
  refine ⟨c, t, hct, ?_⟩
  rw [fuse]
  simp only [← hS, ← hw, if_neg h, hct]

/-- C4: among the usable (non-blank) answers, in `model_list` order, `fuse`'s
winning normalized form has maximal occurrence count, and every normalized
form occurring before the winner's first occurrence has a strictly smaller
count (so ties go to the first-seen group in `model_list` order); the fused
reply normalizes to that winner.  In particular `["Paris", "London"]` fuses
to `"Paris"`. -/
theorem c4_plurality_first_seen_winner :
    (∀ answers : List String, strippedAnswers answers ≠ [] →
      pyNormalize (fuse answers)
          = bestNorm ((strippedAnswers answers).map pyNormalize) ∧
        bestNorm ((strippedAnswers answers).map pyNormalize)
          ∈ (strippedAnswers answers).map pyNormalize ∧
        (∀ x ∈ (strippedAnswers answers).map pyNormalize,
          ((strippedAnswers answers).map pyNormalize).count x
            ≤ ((strippedAnswers answers).map pyNormalize).count
                (bestNorm ((strippedAnswers answers).map pyNormalize))) ∧
        ∀ x ∈ ((strippedAnswers answers).map pyNormalize).takeWhile
            (· != bestNorm ((strippedAnswers answers).map pyNormalize)),
          ((strippedAnswers answers).map pyNormalize).count x
            < ((strippedAnswers answers).map pyNormalize).count
                (bestNorm ((strippedAnswers answers).map pyNormalize))) ∧
      fuse ["Paris", "London"] = "Paris" := by
  constructor
  · intro answers h
    have hN : (strippedAnswers answers).map pyNormalize ≠ [] := fun he =>
      h (List.map_eq_nil_iff.mp he)
    obtain ⟨c, t, hct, hfc⟩ := fuse_eq_head_candidates answers h
    obtain ⟨-, hcw, -⟩ := filter_head_spec _ c t hct
    refine ⟨?_, bestNorm_mem _ hN, bestNorm_max _ hN, bestNorm_first _ hN⟩
    rw [hfc]
    exact eq_of_beq hcw
  · decide

/-- Witness for C4 at the claim's own example. -/
theorem c4_witness :
    pyNormalize (fuse ["Paris", "London"])
        = bestNorm ((strippedAnswers ["Paris", "London"]).map pyNormalize) ∧
      fuse ["Paris", "London"] = "Paris" :=
  ⟨(c4_plurality_first_seen_winner.1 ["Paris", "London"] (by decide)).1,
   c4_plurality_first_seen_winner.2⟩

/-- Counterexample to C3: the code returns `candidates[0]` drawn from
`non_empty`, which holds the *stripped* answers, not the originals.  For the
single answer `" Paris. "` the claim mandates the original string
`" Paris. "`, but `fuse` returns the stripped `"Paris."`. -/
theorem c3_counterexample :
    fuse [" Paris. "] = "Paris." ∧ (" Paris. " : String) ≠ "Paris." := by
  exact ⟨by decide, by decide⟩

/-- C3 (amended): `fuse` returns the first *stripped* usable answer, in
`model_list` order, whose normalized form equals the winning form — the
stripped form of some original answer (equal to the original whenever the
original has no leading/trailing whitespace); every stripped answer occurring
before the returned one normalizes to a non-winning form. -/
theorem c3_first_matching_stripped (answers : List String)
    (h : ∃ a ∈ answers, pyStrip a ≠ "") :
    (∃ a ∈ answers, fuse answers = pyStrip a) ∧
      fuse answers ∈ strippedAnswers answers ∧
      pyNormalize (fuse answers)
        = bestNorm ((strippedAnswers answers).map pyNormalize) ∧
      ∀ s ∈ (strippedAnswers answers).takeWhile (· != fuse answers),
        pyNormalize s ≠ bestNorm ((strippedAnswers answers).map pyNormalize) := by
  have hS : strippedAnswers answers ≠ [] := by
    obtain ⟨a, ha, hne⟩ := h
    have hane : a ≠ "" := by
      intro he
      exact hne (by rw [he]; rfl)
    have hu : usable a = true := by
      simp [usable, hane, hne]
    have : pyStrip a ∈ strippedAnswers answers :=
      List.mem_map_of_mem pyStrip (List.mem_filter.mpr ⟨ha, hu⟩)
    exact List.ne_nil_of_mem this
  obtain ⟨c, t, hct, hfc⟩ := fuse_eq_head_candidates answers hS
  obtain ⟨hcS, hcw, htw⟩ := filter_head_spec _ c t hct
  refine ⟨?_, hfc ▸ hcS, by rw [hfc]; exact eq_of_beq hcw, ?_⟩
  · obtain ⟨a, haf, hac⟩ := List.mem_map.mp hcS
    exact ⟨a, (List.mem_filter.mp haf).1, by rw [hfc, hac]⟩
  · intro s hs he
    rw [hfc] at hs
    have hfalse := htw s hs
    rw [he] at hfalse
    simp at hfalse

/-- Witness for the amended C3 at the claim's example: the fused reply is the
stripped form of one of the three original answers (here all originals are
already stripped, so it is one of them verbatim). -/
theorem c3_witness :
    (∃ a ∈ ["Paris.", "paris", "Paris"],
        fuse ["Paris.", "paris", "Paris"] = pyStrip a) ∧
      fuse ["Paris.", "paris", "Paris"] ∈ strippedAnswers ["Paris.", "paris", "Paris"] ∧
      pyNormalize (fuse ["Paris.", "paris", "Paris"])
        = bestNorm ((strippedAnswers ["Paris.", "paris", "Paris"]).map pyNormalize) ∧
      ∀ s ∈ (strippedAnswers ["Paris.", "paris", "Paris"]).takeWhile
          (· != fuse ["Paris.", "paris", "Paris"]),
        pyNormalize s
          ≠ bestNorm ((strippedAnswers ["Paris.", "paris", "Paris"]).map pyNormalize) :=
  c3_first_matching_stripped ["Paris.", "paris", "Paris"] (by decide)

/-! ## C5: retrieval order -/

theorem tie_sims : simsOf [[1], [1]] [1] = [1, 1] := by
  simp [simsOf, dot]

theorem tie_argsort_10 : IsArgsortDesc (simsOf [[1], [1]] [1]) [1, 0] := by
  rw [IsArgsortDesc, tie_sims]
  refine ⟨by decide, ?_⟩
  show List.Pairwise _ _
  simp [List.pairwise_cons]

theorem tie_argsort_01 : IsArgsortDesc (simsOf [[1], [1]] [1]) [0, 1] := by
  rw [IsArgsortDesc, tie_sims]
  refine ⟨by decide, ?_⟩
  show List.Pairwise _ _
  simp [List.pairwise_cons]

/-- Counterexample to C5: the code sorts with `np.argsort(-sims)` using the
default `kind='quicksort'`, which NumPy documents as *not stable*, so on
tied similarities nothing forces the lower corpus index first.  With two
identical rows, the index order `[1, 0]` is a valid `argsort` output and
yields `["b", "a"]`, violating the claimed mandatory output `["a", "b"]`. -/
theorem c5_counterexample :
    RetrieveRel tieState [1] 2 ["b", "a"] ∧ (["b", "a"] : List String) ≠ ["a", "b"] := by
  constructor
  · exact Or.inr ⟨by simp [tieState], by simp [tieState],
      [[1], [1]], [1, 0], rfl, tie_argsort_10, by decide⟩
  · decide

/-- C5 (amended): on a non-empty corpus every possible `retrieve` result is
the first `topK` chunk texts along some similarity-non-increasing index
permutation: it has `min topK n` entries, and every selected index has
similarity at least that of every non-selected index.  The order among
equal-similarity chunks is left unspecified (NumPy's default sort is
unstable), so no fixed tie-break is guaranteed. -/
theorem c5_descending_topk (st : CorpusState) (qv : List ℚ) (topK : Nat)
    (result : List String) (m : List (List ℚ)) (hm : st.embeddings = some m)
    (hd : st.docs ≠ []) (hr : RetrieveRel st qv topK result) :
    ∃ idxs, IsArgsortDesc (simsOf m qv) idxs ∧
      result = (idxs.take topK).map (fun i => st.docs.getD i "") ∧
      result.length = min topK m.length ∧
      ∀ i ∈ idxs.take topK, ∀ j ∈ idxs.drop topK,
        (simsOf m qv).getD j 0 ≤ (simsOf m qv).getD i 0 := by
  rcases hr with ⟨hor, -⟩ | ⟨-, -, m', idxs, hm', hsort, hres⟩
  · rcases hor with hor | hor
    · rw [hm] at hor
      cases hor
    · exact absurd hor hd
  · have hmm : m = m' := Option.some.inj (hm.symm.trans hm')
    subst hmm
    have hlen : idxs.length = m.length := by
      have := hsort.1.length_eq
      simpa [simsOf] using this
    refine ⟨idxs, hsort, hres, ?_, ?_⟩
    · rw [hres]
      simp [hlen]
    · intro i hi j hj
      have hpw : (((idxs.take topK).map fun i => (simsOf m qv).getD i 0)
          ++ ((idxs.drop topK).map fun i => (simsOf m qv).getD i 0)).Pairwise
            (fun a b => b ≤ a) := by
        rw [← List.map_append, List.take_append_drop]
        exact hsort.2
      exact (List.pairwise_append.mp hpw).2.2 _
        (List.mem_map_of_mem _ hi) _ (List.mem_map_of_mem _ hj)

/-- Witness for the amended C5 at a concrete two-chunk retrieval. -/
theorem c5_witness :
    ∃ idxs, IsArgsortDesc (simsOf [[1], [1]] [1]) idxs ∧
      (["a", "b"] : List String) = (idxs.take 2).map (fun i => tieState.docs.getD i "") ∧
      (["a", "b"] : List String).length = min 2 ([[1], [1]] : List (List ℚ)).length ∧
      ∀ i ∈ idxs.take 2, ∀ j ∈ idxs.drop 2,
        (simsOf [[1], [1]] [1]).getD j 0 ≤ (simsOf [[1], [1]] [1]).getD i 0 :=
  c5_descending_topk tieState [1] 2 ["a", "b"] [[1], [1]] rfl (by simp [tieState])
    (Or.inr ⟨by simp [tieState], by simp [tieState], [[1], [1]], [0, 1], rfl,
      tie_argsort_01, by decide⟩)

set_option maxHeartbeats 2000000 in
set_option maxRecDepth 20000 in
/-- Witness for C6 at concrete 500-word, 501-word and empty texts. -/
theorem c6_witness :
    ragChunk text500 = [joinWords (pySplit text500)] ∧
    ragChunk text501 = [joinWords ((pySplit text501).take 500),
      joinWords ((pySplit text501).drop 500)] ∧
    ragChunk "" = [] :=
  ⟨(c6_chunk_greedy_500 text500).2.2.2.1 (by decide),
   (c6_chunk_greedy_500 text501).2.2.2.2.1 (by decide),
   (c6_chunk_greedy_500 "").2.2.2.2.2 (by decide)⟩
example : fuse ["Paris.", "paris", "Paris"] = "paris" := by decide
example : fuse ["", "  "] = "(no answer)" := by decide
example : fuse [" Paris. "] = "Paris." := by decide
example : fuse ["a b", "A  B", "c"] = "a b" := by decide

end Evo
